import Mathlib

/-!
Verification of the Mono signature generator
(`scripts/generate_mono_signatures.py`).

The script is embedded shallowly: each Python regex substitution is
modelled as a character-list scanner with the exact semantics of the
CPython `re` module on the concrete pattern (leftmost match, alternation
order, greedy/lazy quantifiers, word boundaries), and the pipeline
(`strip_comments`, `collect_enum_types`, `parse_functions`,
`parse_function_declaration`, `parse_parameters`, `normalize_type`,
`map_native_type`, `generate`) is reproduced over `List Char` / `String`.
-/

/-- Python `\s` for the ASCII range (the header files are ASCII). -/
def isSpace (c : Char) : Bool :=
  c = ' ' ∨ c = '\t' ∨ c = '\n' ∨ c = '\r' ∨ c = '\x0b' ∨ c = '\x0c'

/-- Python `\w` for the ASCII range: `[A-Za-z0-9_]`. -/
def isWordChar (c : Char) : Bool :=
  (('a' ≤ c ∧ c ≤ 'z') ∨ ('A' ≤ c ∧ c ≤ 'Z') ∨ ('0' ≤ c ∧ c ≤ '9') ∨ c = '_')

/-- `[A-Z0-9_]`, the continuation class of `MONO_RE`. -/
def isMacroTail (c : Char) : Bool :=
  (('A' ≤ c ∧ c ≤ 'Z') ∨ ('0' ≤ c ∧ c ≤ '9') ∨ c = '_')

/-- `[0-9]`. -/
def isDigitCh (c : Char) : Bool :=
  '0' ≤ c ∧ c ≤ '9'

/-- `[A-Za-z_]`, the leading class of the identifier regex. -/
def isIdentStart (c : Char) : Bool :=
  (('a' ≤ c ∧ c ≤ 'z') ∨ ('A' ≤ c ∧ c ≤ 'Z') ∨ c = '_')

/-- Python `str.strip()` (ASCII whitespace). -/
def pyStrip (l : List Char) : List Char :=
  ((l.dropWhile isSpace).reverse.dropWhile isSpace).reverse

/-- `WHITESPACE_RE.sub(" ", ·)`: each maximal run of whitespace becomes one
space.  The flag records whether the previous character was whitespace
(in which case the current whitespace character is part of an already
replaced run). -/
def wsCollapseA : Bool → List Char → List Char
  | _, [] => []
  | prevWs, c :: rest =>
    if isSpace c then
      if prevWs then wsCollapseA true rest else ' ' :: wsCollapseA true rest
    else c :: wsCollapseA false rest

def wsCollapse (l : List Char) : List Char := wsCollapseA false l

/-! ## `strip_comments`

`COMMENT_BLOCK_RE = /\*[\s\S]*?\*/` (replaced by a space), then
`COMMENT_LINE_RE = ([^:]|^)//.*$` with `re.MULTILINE` (replaced by the
first group). -/

/-- Does the text contain an occurrence of `*/`? -/
def hasClose : List Char → Bool
  | a :: b :: l => if a = '*' ∧ b = '/' then true else hasClose (b :: l)
  | _ => false

/-- Does the text contain an occurrence of `/*`? -/
def hasOpen : List Char → Bool
  | a :: b :: l => if a = '/' ∧ b = '*' then true else hasOpen (b :: l)
  | _ => false

/-- Does `COMMENT_BLOCK_RE` match somewhere: is there a `/*` with a later
`*/`?  (At the first `/*`: a closing `*/` must occur strictly after it;
if there is no `*/` after the first `/*` there is none after any later
`/*` either.) -/
def hasBlock : List Char → Bool
  | a :: b :: l => if a = '/' ∧ b = '*' then hasClose l else hasBlock (b :: l)
  | _ => false

/-- `COMMENT_BLOCK_RE.sub(" ", ·)`.  Mode `false` scans for `/*` (a match
requires a later `*/`, otherwise the engine never matches again in this
suffix); mode `true` skips to the closing `*/`. -/
def blockA : Bool → List Char → List Char
  | false, a :: b :: l =>
    if a = '/' ∧ b = '*' then
      (if hasClose l then ' ' :: blockA true l else a :: b :: l)
    else a :: blockA false (b :: l)
  | false, l => l
  | true, a :: b :: l =>
    if a = '*' ∧ b = '/' then blockA false l else blockA true (b :: l)
  | true, _ => []

def blockSub (l : List Char) : List Char := blockA false l

/-- Scan of `([^:]|^)//.*$` match starts at positions ≥ 1 of a line: the
window `c0 :: c1 :: c2` matches when `c0 ≠ ':'` and `c1 = c2 = '/'`;
the kept output is everything up to and including `c0`. -/
def lcA : List Char → List Char
  | c0 :: c1 :: c2 :: rest =>
    if c0 ≠ ':' ∧ c1 = '/' ∧ c2 = '/' then [c0]
    else c0 :: lcA (c1 :: c2 :: rest)
  | l => l

/-- Line-comment removal for the first line of the input: at position 0
the alternative `[^:]` is tried before `^`, so `///x` keeps its first
slash while `//x` is removed entirely. -/
def lineCutFirst : List Char → List Char
  | c0 :: c1 :: c2 :: rest =>
    if c0 ≠ ':' ∧ c1 = '/' ∧ c2 = '/' then [c0]
    else if c0 = '/' ∧ c1 = '/' then []
    else c0 :: lcA (c1 :: c2 :: rest)
  | [c0, c1] => if c0 = '/' ∧ c1 = '/' then [] else [c0, c1]
  | l => l

/-- Line-comment removal for a line preceded by a newline: the newline
itself is an eligible `[^:]` character, so a line starting with `//` is
removed from position 0 (before the in-line alternatives are tried). -/
def lineCutRest : List Char → List Char
  | c0 :: c1 :: c2 :: rest =>
    if c0 = '/' ∧ c1 = '/' then []
    else if c0 ≠ ':' ∧ c1 = '/' ∧ c2 = '/' then [c0]
    else c0 :: lcA (c1 :: c2 :: rest)
  | [c0, c1] => if c0 = '/' ∧ c1 = '/' then [] else [c0, c1]
  | l => l

/-- Split on `'\n'` keeping empty pieces (`"a\nb"` ↦ `[a, b]`,
`""` ↦ `[""]`). -/
def splitLines : List Char → List (List Char)
  | [] => [[]]
  | c :: rest =>
    if c = '\n' then [] :: splitLines rest
    else
      match splitLines rest with
      | [] => [[c]]
      | l :: ls => (c :: l) :: ls

/-- Inverse of `splitLines`: interleave `'\n'`. -/
def joinLines : List (List Char) → List Char
  | [] => []
  | [l] => l
  | l :: ls => l ++ '\n' :: joinLines ls

/-- Apply the first-line cut to the first piece and the rest-line cut to
the later pieces. -/
def applyCuts : List (List Char) → List (List Char)
  | [] => []
  | p :: ps => lineCutFirst p :: ps.map lineCutRest

/-- `COMMENT_LINE_RE.sub(r"\1", ·)` with `re.MULTILINE`. -/
def lineSub (l : List Char) : List Char :=
  joinLines (applyCuts (splitLines l))

/-- `strip_comments` from the script: block comments become a space, then
line comments are removed. -/
def strip_comments (l : List Char) : List Char :=
  lineSub (blockSub l)

/-! ## The other regex substitutions -/

/-- After the literal `MONO_`, does `[A-Z0-9_]+\b` match: a nonempty run
of tail characters whose following character (if any) is a non-word
character? -/
def macroTailOk (rest : List Char) : Bool :=
  (!(rest.takeWhile isMacroTail).isEmpty) &&
    (match rest.dropWhile isMacroTail with
     | [] => true
     | c :: _ => !isWordChar c)

/-- `MACRO_RE.sub(" ", ·)` where `MACRO_RE = \bMONO_[A-Z0-9_]+\b`.
First flag: currently consuming the matched `[A-Z0-9_]+` run; second
flag: the previous character is a word character (for `\b`). -/
def macroA : Bool → Bool → List Char → List Char
  | tl, prev, 'M' :: 'O' :: 'N' :: 'O' :: '_' :: rest =>
    if tl then macroA true true ('O' :: 'N' :: 'O' :: '_' :: rest)
    else if ¬ prev ∧ macroTailOk rest then ' ' :: macroA true true rest
    else 'M' :: macroA false true ('O' :: 'N' :: 'O' :: '_' :: rest)
  | tl, _, c :: rest =>
    if tl then
      if isMacroTail c then macroA true true rest
      else c :: macroA false (isWordChar c) rest
    else c :: macroA false (isWordChar c) rest
  | _, _, [] => []

def macroSub (l : List Char) : List Char := macroA false false l

/-- `\b` after a literal word: the next character (if any) is non-word. -/
def seBoundary (rest : List Char) : Bool :=
  match rest with
  | [] => true
  | c :: _ => !isWordChar c

/-- `STRUCT_ENUM_RE.sub("", ·)` where
`STRUCT_ENUM_RE = \b(struct|enum)\b\s*`.  First flag: currently skipping
the `\s*` run after a matched keyword; second flag: previous character
is a word character. -/
def seA : Bool → Bool → List Char → List Char
  | skip, prev, 's' :: 't' :: 'r' :: 'u' :: 'c' :: 't' :: rest =>
    if (if skip then false else prev) = false ∧ seBoundary rest then seA true false rest
    else 's' :: seA false true ('t' :: 'r' :: 'u' :: 'c' :: 't' :: rest)
  | skip, prev, 'e' :: 'n' :: 'u' :: 'm' :: rest =>
    if (if skip then false else prev) = false ∧ seBoundary rest then seA true false rest
    else 'e' :: seA false true ('n' :: 'u' :: 'm' :: rest)
  | skip, _, c :: rest =>
    if skip ∧ isSpace c then seA true false rest
    else c :: seA false (isWordChar c) rest
  | _, _, [] => []

def structEnumSub (l : List Char) : List Char := seA false false l

/-- `re.sub(r"\b(const|volatile|restrict)\b", " ", ·)`. -/
def qsA : Bool → List Char → List Char
  | prev, 'c' :: 'o' :: 'n' :: 's' :: 't' :: rest =>
    if ¬ prev ∧ seBoundary rest then ' ' :: qsA true rest
    else 'c' :: qsA true ('o' :: 'n' :: 's' :: 't' :: rest)
  | prev, 'v' :: 'o' :: 'l' :: 'a' :: 't' :: 'i' :: 'l' :: 'e' :: rest =>
    if ¬ prev ∧ seBoundary rest then ' ' :: qsA true rest
    else 'v' :: qsA true ('o' :: 'l' :: 'a' :: 't' :: 'i' :: 'l' :: 'e' :: rest)
  | prev, 'r' :: 'e' :: 's' :: 't' :: 'r' :: 'i' :: 'c' :: 't' :: rest =>
    if ¬ prev ∧ seBoundary rest then ' ' :: qsA true rest
    else 'r' :: qsA true ('e' :: 's' :: 't' :: 'r' :: 'i' :: 'c' :: 't' :: rest)
  | _, c :: rest => c :: qsA (isWordChar c) rest
  | _, [] => []

def qualSub (l : List Char) : List Char := qsA false l

/-- `POINTER_SPACING_RE.sub("*", ·)` where
`POINTER_SPACING_RE = \s*\*\s*`.  The flag records that a `*` was just
emitted and its trailing `\s*` is being consumed; the buffer holds (in
reverse) a pending whitespace run that becomes part of a match if a `*`
follows, and is flushed verbatim otherwise. -/
def ptrA : Bool → List Char → List Char → List Char
  | _, pend, [] => pend.reverse
  | mode, pend, c :: rest =>
    if c = '*' then '*' :: ptrA true [] rest
    else if isSpace c then
      if mode then ptrA true [] rest else ptrA false (c :: pend) rest
    else pend.reverse ++ c :: ptrA false [] rest

def ptrSub (l : List Char) : List Char := ptrA false [] l

/-- `ARRAY_RE.sub("*", ·)` where `ARRAY_RE = \[[^\]]*\]`.  The buffer
holds (in reverse) the text since an unclosed `[`; it is flushed
verbatim at end of input (no `]` ever follows, so no further match can
exist). -/
def arrA : Option (List Char) → List Char → List Char
  | none, '[' :: rest => arrA (some ['[']) rest
  | none, c :: rest => c :: arrA none rest
  | none, [] => []
  | some _, ']' :: rest => '*' :: arrA none rest
  | some buf, c :: rest => arrA (some (c :: buf)) rest
  | some buf, [] => buf.reverse

def arraySub (l : List Char) : List Char := arrA none l

def noComma (l : List Char) : Bool := ¬ l.contains ','

/-- `DEFAULT_VALUE_RE.sub("", ·)` where
`DEFAULT_VALUE_RE = \s*=\s*[^,]+$`: everything from the whitespace run
preceding the first `=` whose suffix is nonempty and comma-free is
deleted.  The buffer holds (in reverse) the pending whitespace run. -/
def dvA : List Char → List Char → List Char
  | pend, [] => pend.reverse
  | pend, '=' :: rest =>
    if ¬ rest.isEmpty ∧ noComma rest then []
    else pend.reverse ++ '=' :: dvA [] rest
  | pend, c :: rest =>
    if isSpace c then dvA (c :: pend) rest
    else pend.reverse ++ c :: dvA [] rest

def defaultSub (l : List Char) : List Char := dvA [] l

/-! ## `parse_function_declaration` and `parse_parameters` -/

structure FunctionDecl where
  name : List Char
  return_type : List Char
  parameters : List (List Char)
deriving Repr, DecidableEq

/-- `re.search(r"([A-Za-z_][A-Za-z0-9_]*)$", ·)`: the longest suffix of
word characters, with its leading digits removed (the leftmost start
must be `[A-Za-z_]`). -/
def trailingIdent (l : List Char) : Option (List Char) :=
  let run := (l.reverse.takeWhile isWordChar).reverse
  let name := run.dropWhile isDigitCh
  if name.isEmpty then none else some name

/-- `params_tail.rsplit(")", 1)[0]`: everything before the last `)`, or
the whole text when there is no `)`. -/
def beforeLastClose (l : List Char) : List Char :=
  if l.contains ')' then ((l.reverse.dropWhile (fun c => c ≠ ')')).drop 1).reverse
  else l

/-- Python `str.split(" ")` (empty pieces kept, `""` ↦ `[""]`). -/
def splitOnSpace : List Char → List (List Char)
  | [] => [[]]
  | ' ' :: rest => [] :: splitOnSpace rest
  | c :: rest =>
    match splitOnSpace rest with
    | [] => [[c]]
    | l :: ls => (c :: l) :: ls

/-- The depth-aware comma split of `parse_parameters` (depth is a Python
`int`: it may go negative). -/
def stA : Int → List Char → List Char → List (List Char)
  | _, acc, [] => if acc.isEmpty then [] else [acc.reverse]
  | d, acc, c :: rest =>
    if c = '(' then stA (d + 1) (c :: acc) rest
    else if c = ')' then stA (d - 1) (c :: acc) rest
    else if c = ',' ∧ d = 0 then acc.reverse :: stA 0 [] rest
    else stA d (c :: acc) rest

def splitTopLevel (l : List Char) : List (List Char) := stA 0 [] l

/-- The per-fragment normalization chain of `parse_parameters`
(lines 95–100 of the script), applied to the stripped fragment. -/
def fragSubs (p : List Char) : List Char :=
  pyStrip (wsCollapse (ptrSub (qualSub (defaultSub (arraySub (macroSub p))))))

/-- Processing of one comma fragment in `parse_parameters`: `none` when
the fragment contributes no parameter. -/
def procFrag (param : List Char) : Option (List Char) :=
  let p0 := pyStrip param
  if p0.isEmpty ∨ p0 = [ 'v', 'o', 'i', 'd' ] then none
  else
    let p := fragSubs p0
    if p = [ '.', '.', '.' ] then none
    else
      let tokens := splitOnSpace p
      let tokens2 := if tokens.length > 1 then tokens.dropLast else tokens
      let tp := ptrSub (pyStrip (List.intercalate [ ' ' ] tokens2))
      if tp.isEmpty then none else some tp

def parse_parameters (param_text : List Char) : List (List Char) :=
  if param_text.isEmpty ∨ param_text = [ 'v', 'o', 'i', 'd' ] then []
  else (splitTopLevel param_text).filterMap procFrag

/-- Lines 51–55 of the script: the normalization applied to a raw
declaration before name splitting. -/
def normDecl (declaration : List Char) : List Char :=
  pyStrip (wsCollapse (ptrSub (structEnumSub (macroSub (pyStrip (wsCollapse declaration))))))

/-- `before_params = text.split("(", 1)[0].strip()`. -/
def beforeParams (text : List Char) : List Char :=
  pyStrip (text.takeWhile (fun c => c ≠ '('))

/-- `params_raw = text.split("(", 1)[1].rsplit(")", 1)[0].strip()`. -/
def paramsRaw (text : List Char) : List Char :=
  pyStrip (beforeLastClose ((text.dropWhile (fun c => c ≠ '(')).drop 1))

/-- `return_type = before_params[: name_match.start()].strip()`. -/
def retOf (text name : List Char) : List Char :=
  pyStrip ((beforeParams text).take ((beforeParams text).length - name.length))

def parse_function_declaration (declaration : List Char) : Option FunctionDecl :=
  let text := normDecl declaration
  if ¬ (text.contains '(' ∧ text.contains ')') then none
  else
    match trailingIdent (beforeParams text) with
    | none => none
    | some name =>
      if (retOf text name).isEmpty then none
      else some ⟨name, retOf text name, parse_parameters (paramsRaw text)⟩

/-! ## Declaration and enum scanning -/

/-- State of the `FUNCTION_PATTERN = MONO_API\s+([\s\S]*?);` scanner:
searching for the literal, consuming the `\s+` run, or collecting the
lazy group up to the first `;` (accumulated in reverse). -/
inductive FdSt where
  | scan : FdSt
  | skipws : FdSt
  | col : List Char → FdSt

/-- `FUNCTION_PATTERN.finditer`, returning the list of first groups. -/
def fdA : FdSt → List Char → List (List Char)
  | .scan, 'M' :: 'O' :: 'N' :: 'O' :: '_' :: 'A' :: 'P' :: 'I' :: c :: rest =>
    if isSpace c then fdA .skipws rest
    else fdA .scan ('O' :: 'N' :: 'O' :: '_' :: 'A' :: 'P' :: 'I' :: c :: rest)
  | .scan, _ :: rest => fdA .scan rest
  | .skipws, c :: rest =>
    if isSpace c then fdA .skipws rest
    else if c = ';' then [] :: fdA .scan rest
    else fdA (.col [c]) rest
  | .col acc, c :: rest =>
    if c = ';' then acc.reverse :: fdA .scan rest else fdA (.col (c :: acc)) rest
  | _, [] => []

def findDecls (source : List Char) : List (List Char) := fdA .scan source

def parse_functions (source : List Char) : List FunctionDecl :=
  (findDecls source).filterMap parse_function_declaration

/-- The lazy `[\s\S]*?}` of `ENUM_PATTERN` plus its `\s*(\w+)\s*;` tail:
at each `}` the tail is tried; on failure the lazy group extends to the
next `}`. -/
def enumCloseScan : List Char → Option (List Char × List Char)
  | '}' :: rest =>
    (let r1 := rest.dropWhile isSpace
     let w := r1.takeWhile isWordChar
     if w.isEmpty then enumCloseScan rest
     else
       match (r1.dropWhile isWordChar).dropWhile isSpace with
       | ';' :: r3 => some (w, r3)
       | _ => enumCloseScan rest)
  | _ :: rest => enumCloseScan rest
  | [] => none

/-- After the literal `typedef`, try `\s+enum\b[^{}]*{[\s\S]*?}\s*(\w+)\s*;`. -/
def tryEnum : List Char → Option (List Char × List Char)
  | c :: rest2 =>
    if ¬ isSpace c then none
    else
      match rest2.dropWhile isSpace with
      | 'e' :: 'n' :: 'u' :: 'm' :: r2 =>
        if seBoundary r2 then
          match r2.dropWhile (fun b => b ≠ '{' ∧ b ≠ '}') with
          | '{' :: r4 => enumCloseScan r4
          | _ => none
        else none
      | _ => none
  | [] => none

/-- `ENUM_PATTERN.finditer`, fuelled: every step consumes at least one
input character, so `source.length` fuel is always sufficient. -/
def feF : Nat → List Char → List (List Char)
  | 0, _ => []
  | _ + 1, [] => []
  | fuel + 1, 't' :: 'y' :: 'p' :: 'e' :: 'd' :: 'e' :: 'f' :: rest =>
    (match tryEnum rest with
     | some (name, rest2) => name :: feF fuel rest2
     | none => feF fuel ('y' :: 'p' :: 'e' :: 'd' :: 'e' :: 'f' :: rest))
  | fuel + 1, _ :: rest => feF fuel rest

def collect_enum_types (source : List Char) : List (List Char) :=
  feF source.length source

/-! ## `normalize_type` and `map_native_type` -/

def normalize_type (type_name : List Char) : List Char :=
  pyStrip (wsCollapse (ptrSub (structEnumSub (qualSub (pyStrip type_name)))))

/-- Abbreviation for writing table keys. -/
def cl (s : String) : List Char := s.data

def NUMBER_TYPE_MAP : List (List Char × String) := [
  (cl "void", "void"), (cl "bool", "bool"), (cl "_bool", "bool"),
  (cl "boolean", "bool"), (cl "char", "char"), (cl "signedchar", "int"),
  (cl "unsignedchar", "uchar"), (cl "short", "int"), (cl "shortint", "int"),
  (cl "unsignedshort", "uint"), (cl "unsignedshortint", "uint"),
  (cl "int", "int"), (cl "int32", "int"), (cl "long", "long"),
  (cl "longint", "long"), (cl "unsignedlong", "ulong"),
  (cl "unsignedlongint", "ulong"), (cl "unsignedint", "uint"),
  (cl "uint", "uint"), (cl "uint32", "uint"), (cl "int64", "int64"),
  (cl "unsignedint64", "uint64"), (cl "double", "double"),
  (cl "float", "float"), (cl "size_t", "size_t"), (cl "time_t", "long") ]

def GENERIC_INT_ALIASES : List (List Char × String) := [
  (cl "mono_bool", "int"), (cl "mono_boolean", "int"),
  (cl "mono_unichar2", "uint"), (cl "gunichar2", "uint"),
  (cl "gboolean", "int"), (cl "gint", "int"), (cl "guint", "uint"),
  (cl "gint32", "int"), (cl "guint32", "uint"), (cl "gint16", "int"),
  (cl "guint16", "uint"), (cl "gint8", "int"), (cl "guint8", "uint"),
  (cl "mono_string_hash", "uint"), (cl "mono_marshaltype", "int") ]

def POINTER_SIZED_INTS : List (List Char) := [
  cl "intptr_t", cl "uintptr_t", cl "ssize_t", cl "gssize", cl "gsize",
  cl "ptrdiff_t" ]

/-- `pattern.isPrefixOf text` written out (for `str.startswith`). -/
def leadsWith : List Char → List Char → Bool
  | [], _ => true
  | _ :: _, [] => false
  | p :: ps, c :: cs => p = c && leadsWith ps cs

/-- `str.endswith`. -/
def endsWithL (l pat : List Char) : Bool := leadsWith pat.reverse l.reverse

/-- `int(digits)` for a string of decimal digits. -/
def digitsVal (l : List Char) : Nat :=
  l.foldl (fun n c => 10 * n + (c.toNat - 48)) 0

/-- `canonical = type_name.replace(" ", "").lower()`. -/
def canonOf (type_name : List Char) : List Char :=
  (type_name.filter (fun c => c ≠ ' ')).map Char.toLower

def map_native_type (type_name : List Char) (enum_types : List (List Char)) : String :=
  if type_name.isEmpty then "void"
  else if type_name.contains '*' || endsWithL type_name [ ']' ] then "pointer"
  else
    let canonical := canonOf type_name
    if type_name ∈ enum_types then "int"
    else
      match NUMBER_TYPE_MAP.lookup canonical with
      | some v => v
      | none =>
      match GENERIC_INT_ALIASES.lookup canonical with
      | some v => v
      | none =>
      if canonical ∈ POINTER_SIZED_INTS then
        (if leadsWith [ 'u' ] canonical || leadsWith (cl "gsize") canonical then "size_t"
         else "long")
      else if endsWithL canonical (cl "_t") &&
          leadsWith [ 'u' ] (canonical.take (canonical.length - 2)) then
        (let digits := canonical.filter isDigitCh
         if !digits.isEmpty && digitsVal digits > 32 then "uint64" else "uint")
      else if endsWithL canonical (cl "_t") then
        (let digits := canonical.filter isDigitCh
         if !digits.isEmpty && digitsVal digits > 32 then "int64" else "int")
      else if canonical ∈ POINTER_SIZED_INTS then
        (if canonical.contains 'u' then "size_t" else "long")
      else "pointer"

/-! ## The registry and `generate` -/

structure SigEntry where
  name : String
  retType : String
  argTypes : List String
deriving Repr, DecidableEq

def mkEntry (enums : List (List Char)) (d : FunctionDecl) : SigEntry :=
  ⟨⟨d.name⟩, map_native_type (normalize_type d.return_type) enums,
    d.parameters.map (fun p => map_native_type (normalize_type p) enums)⟩

/-- The namespace filter of `generate` (line 231). -/
def keepName (n : List Char) : Bool :=
  leadsWith (cl "mono") n || leadsWith (cl "monoeg") n

/-- `functions.setdefault(name, mapped)`. -/
def setdefault (m : List (String × SigEntry)) (k : String) (v : SigEntry) :
    List (String × SigEntry) :=
  match m.lookup k with
  | some _ => m
  | none => m ++ [(k, v)]

def regFold (m : List (String × SigEntry)) (entries : List (String × SigEntry)) :
    List (String × SigEntry) :=
  entries.foldl (fun r p => setdefault r p.1 p.2) m

/-- The `(name, mapped)` pairs produced from one sanitized file, given
the enum set in effect while that file is processed.  The filter is a
parameter so that the namespace-filter refinement can be stated. -/
def entriesOfFileWith (keep : List Char → Bool) (enums : List (List Char))
    (san : List Char) : List (String × SigEntry) :=
  ((parse_functions san).filter (fun d => keep d.name)).map
    (fun d => (⟨d.name⟩, mkEntry enums d))

def entriesOfFile : List (List Char) → List Char → List (String × SigEntry) :=
  entriesOfFileWith keepName

/-- One iteration of the per-file loop of `generate`: the enum registry
is extended with this file's enums, then this file's declarations are
classified against it and inserted. -/
def genStepWith (keep : List Char → Bool)
    (st : List (List Char) × List (String × SigEntry)) (f : List Char) :
    List (List Char) × List (String × SigEntry) :=
  let san := strip_comments f
  let enums := st.1 ++ collect_enum_types san
  (enums, regFold st.2 (entriesOfFileWith keep enums san))

def genStep : List (List Char) × List (String × SigEntry) → List Char →
    List (List Char) × List (String × SigEntry) :=
  genStepWith keepName

/-- `sorted(functions)`: the registry in lexicographic key order. -/
def sortPairs (m : List (String × SigEntry)) : List (String × SigEntry) :=
  m.insertionSort (fun a b => a.1 ≤ b.1)

def generateWith (keep : List Char → Bool) (files : List (List Char)) :
    List (String × SigEntry) :=
  sortPairs ((files.foldl (genStepWith keep) ([], [])).2)

/-- The whole pipeline of `generate` on the ordered list of input file
contents, producing the emitted, name-sorted registry. -/
def generate (files : List (List Char)) : List (String × SigEntry) :=
  generateWith keepName files

/-! ## Definitions used only to state claims -/

/-- The namespace filter written as the spec describes it after removing
the redundant disjunct: keep a declaration whose name starts with
`mono` alone. -/
def keepMonoOnly (n : List Char) : Bool := leadsWith (cl "mono") n

/-- The fourteen marshal categories. -/
def marshalCategories : List String := [
  "void", "bool", "char", "uchar", "int", "uint", "long", "ulong",
  "int64", "uint64", "float", "double", "size_t", "pointer" ]

/-- The per-file entry stream in which the classification of each file's
declarations consults exactly the enums collected from that file and the
earlier files (the amended reading of the enum-registry claim): `acc`
is the enum set accumulated from the earlier files. -/
def cumulativeEntries (acc : List (List Char)) : List (List Char) →
    List (String × SigEntry)
  | [] => []
  | f :: fs =>
    let san := strip_comments f
    let enums := acc ++ collect_enum_types san
    entriesOfFile enums san ++ cumulativeEntries enums fs

/-! ## Helper lemmas -/

theorem lookup_val_mem {α β : Type} [BEq α] (k : α) (v : β) :
    ∀ l : List (α × β), l.lookup k = some v → v ∈ l.map Prod.snd := by
  intro l
  induction l with
  | nil => intro h; simp [List.lookup] at h
  | cons p l ih =>
    intro h
    cases p with
    | mk a b =>
      rw [List.lookup] at h
      cases hb : (k == a) with
      | true =>
        rw [hb] at h
        simp only [Option.some.injEq] at h
        subst h
        exact List.mem_cons_self _ _
      | false =>
        rw [hb] at h
        exact List.mem_cons_of_mem _ (ih h)

theorem leadsWith_mono : ∀ (p q s : List Char),
    leadsWith (p ++ q) s = true → leadsWith p s = true := by
  intro p
  induction p with
  | nil => intro q s _; rfl
  | cons a p ih =>
    intro q s h
    cases s with
    | nil => rw [List.cons_append, leadsWith] at h; exact absurd h (by simp)
    | cons b t =>
      simp only [List.cons_append, leadsWith, Bool.and_eq_true] at h ⊢
      exact ⟨h.1, ih q t h.2⟩

/-! ## C2: the minimal-header round trip -/

/-- C2: running the pipeline on a single header whose content is exactly
`MONO_API int mono_foo (void* obj, const char* name);` produces a
registry with exactly one entry, named `mono_foo`, with `retType`
`"int"` and `argTypes` exactly `["pointer", "pointer"]`. -/
theorem c2_minimal_header_roundtrip :
    generate [ ("MONO_API int mono_foo (void* obj, const char* name);" : String).data ] =
      [ ("mono_foo", ⟨"mono_foo", "int", [ "pointer", "pointer" ]⟩) ] := by
  decide

/-! ## C4: pointer detection always wins -/

/-- C4: for every enum set `E` and every type string whose normalized
form contains `*` anywhere or ends with `]`, classification returns
`pointer` (never any other category); in particular the raw type string
`const enum Color *` classifies as `pointer`, not `int`, even when
`Color` is a member of `E`. -/
theorem c4_pointer_always_wins :
    (∀ (E : List (List Char)) (s : List Char),
       (normalize_type s).contains '*' = true ∨
           endsWithL (normalize_type s) [ ']' ] = true →
         map_native_type (normalize_type s) E = "pointer")
    ∧ ∀ E : List (List Char), (cl "Color") ∈ E →
        map_native_type (normalize_type (cl "const enum Color *")) E = "pointer" := by
  have main : ∀ (E : List (List Char)) (t : List Char),
      t.contains '*' = true ∨ endsWithL t [ ']' ] = true →
      map_native_type t E = "pointer" := by
    intro E t h
    have hne : t.isEmpty = false := by
      rcases h with h | h
      · cases t with
        | nil => simp [List.contains] at h
        | cons a l => simp
      · cases t with
        | nil => simp [endsWithL, leadsWith] at h
        | cons a l => simp
    unfold map_native_type
    rw [if_neg (by simp [hne])]
    rw [if_pos (show (t.contains '*' || endsWithL t [ ']' ]) = true by
      rcases h with h | h
      · rw [h, Bool.true_or]
      · rw [h, Bool.or_true])]
  refine ⟨fun E s h => main E _ h, fun E _ => main E _ ?_⟩
  left
  decide

/-- Witness for `c4_pointer_always_wins` at concrete inputs. -/
theorem c4_pointer_always_wins_witness :
    map_native_type (normalize_type (cl "int *")) [] = "pointer" ∧
      map_native_type (normalize_type (cl "const enum Color *"))
        [ cl "Color" ] = "pointer" :=
  ⟨c4_pointer_always_wins.1 [] (cl "int *") (Or.inl (by decide)),
   c4_pointer_always_wins.2 [ cl "Color" ] (by decide)⟩

/-! ## C8: the pointer-sized integer rule -/

/-- C8 counterexample: the pointer-sized integer set has six members,
not five (`ptrdiff_t` is a member beyond `intptr_t`, `uintptr_t`,
`ssize_t` and the two glib aliases `gssize`/`gsize`), and the rule maps
`ptrdiff_t` to `long` — whereas a five-element set without `ptrdiff_t`
would send it to the `_t`-suffix heuristic and yield `int`. -/
theorem c8_counterexample :
    POINTER_SIZED_INTS.length = 6 ∧ POINTER_SIZED_INTS.Nodup ∧
      (cl "ptrdiff_t") ∈ POINTER_SIZED_INTS ∧
      (cl "ptrdiff_t") ≠ cl "intptr_t" ∧ (cl "ptrdiff_t") ≠ cl "uintptr_t" ∧
      (cl "ptrdiff_t") ≠ cl "ssize_t" ∧
      map_native_type (cl "ptrdiff_t") [] = "long" ∧
      ("long" : String) ≠ "int" := by
  decide

/-- C8 amended: the pointer-sized integer rule applies exactly to the
six-element set `{intptr_t, uintptr_t, ssize_t, gssize, gsize,
ptrdiff_t}`; members that start with `u` or with `gsize` map to
`size_t` and every other member maps to `long`; in particular
`uintptr_t ↦ size_t` and `ssize_t ↦ long` (and `ptrdiff_t ↦ long`). -/
theorem c8_pointer_sized_rule (E : List (List Char)) :
    POINTER_SIZED_INTS = [ cl "intptr_t", cl "uintptr_t", cl "ssize_t",
        cl "gssize", cl "gsize", cl "ptrdiff_t" ]
    ∧ ((cl "uintptr_t") ∉ E → map_native_type (cl "uintptr_t") E = "size_t")
    ∧ ((cl "gsize") ∉ E → map_native_type (cl "gsize") E = "size_t")
    ∧ ((cl "intptr_t") ∉ E → map_native_type (cl "intptr_t") E = "long")
    ∧ ((cl "ssize_t") ∉ E → map_native_type (cl "ssize_t") E = "long")
    ∧ ((cl "gssize") ∉ E → map_native_type (cl "gssize") E = "long")
    ∧ ((cl "ptrdiff_t") ∉ E → map_native_type (cl "ptrdiff_t") E = "long") := by
  refine ⟨by decide, fun h => ?_, fun h => ?_, fun h => ?_, fun h => ?_,
    fun h => ?_, fun h => ?_⟩
  all_goals
    have hm := eq_false h
    simp only [map_native_type, hm, if_false]
    decide

/-- Witness for `c8_pointer_sized_rule` with the empty enum set. -/
theorem c8_pointer_sized_rule_witness :
    map_native_type (cl "uintptr_t") [] = "size_t" ∧
      map_native_type (cl "ssize_t") [] = "long" :=
  ⟨(c8_pointer_sized_rule []).2.1 (by decide),
   (c8_pointer_sized_rule []).2.2.2.1 (by decide)⟩

/-! ## C3: the classifier is total with default `pointer` -/

/-- C3: `map_native_type` always returns one of the fourteen category
strings; and any nonempty name with no `*`, not ending in `]`, not in
the enum set, matching none of the three lookup tables and not ending
in `_t` (such as `MonoOpaqueHandle`) classifies as `pointer`. -/
theorem c3_classifier_total (s : List Char) (E : List (List Char)) :
    map_native_type s E ∈ marshalCategories
    ∧ (s ≠ [] → s.contains '*' = false → endsWithL s [ ']' ] = false →
       s ∉ E →
       NUMBER_TYPE_MAP.lookup (canonOf s) = none →
       GENERIC_INT_ALIASES.lookup (canonOf s) = none →
       canonOf s ∉ POINTER_SIZED_INTS →
       endsWithL (canonOf s) (cl "_t") = false →
       map_native_type s E = "pointer") := by
  constructor
  · have hn : ∀ x ∈ NUMBER_TYPE_MAP.map Prod.snd, x ∈ marshalCategories := by decide
    have hg : ∀ x ∈ GENERIC_INT_ALIASES.map Prod.snd, x ∈ marshalCategories := by
      decide
    simp only [map_native_type]
    repeat' split
    any_goals decide
    · exact hn _ (lookup_val_mem _ _ _ (by assumption))
    · exact hg _ (lookup_val_mem _ _ _ (by assumption))
  · intro h1 h2 h3 h4 h5 h6 h7 h8
    have h2m : '*' ∉ s := by simpa using h2
    simp only [map_native_type, h5, h6, eq_false h4, eq_false h7, if_false]
    rw [if_neg (by simp [h1]), if_neg (by simp [h2m, h3]), if_neg (by simp [h8]),
      if_neg (by simp [h8])]

/-- Witness for `c3_classifier_total`: `MonoOpaqueHandle` (not in any
table, not an enum, no `_t` suffix) classifies as `pointer`. -/
theorem c3_classifier_total_witness :
    map_native_type (cl "MonoOpaqueHandle") [] ∈ marshalCategories ∧
      map_native_type (cl "MonoOpaqueHandle") [] = "pointer" :=
  ⟨(c3_classifier_total (cl "MonoOpaqueHandle") []).1,
   (c3_classifier_total (cl "MonoOpaqueHandle") []).2 (by decide) (by decide)
     (by decide) (by decide) (by decide) (by decide) (by decide) (by decide)⟩

/-! ## C10: the `monoeg` disjunct of the namespace filter is redundant -/

/-- C10: every name starting with `monoeg` starts with `mono`, the
two-disjunct namespace filter equals the `mono`-only filter, and the
pipeline built on the simplified filter emits an identical registry on
every input. -/
theorem c10_namespace_filter_refinement :
    (∀ s : List Char,
       leadsWith (cl "monoeg") s = true → leadsWith (cl "mono") s = true)
    ∧ (∀ n : List Char, keepName n = keepMonoOnly n)
    ∧ ∀ files, generate files = generateWith keepMonoOnly files := by
  have hmono : ∀ s : List Char,
      leadsWith (cl "monoeg") s = true → leadsWith (cl "mono") s = true := by
    intro s h
    have he : cl "monoeg" = cl "mono" ++ cl "eg" := by decide
    rw [he] at h
    exact leadsWith_mono _ _ _ h
  have hkeep : keepName = keepMonoOnly := by
    funext n
    unfold keepName keepMonoOnly
    cases hm : leadsWith (cl "mono") n with
    | true => rfl
    | false =>
      rw [Bool.false_or]
      cases hg : leadsWith (cl "monoeg") n with
      | true =>
        have := hmono n hg
        rw [this] at hm
        exact absurd hm (by decide)
      | false => rfl
  exact ⟨hmono, fun n => by rw [hkeep],
    fun files => by unfold generate; rw [hkeep]⟩

/-- Witness for `c10_namespace_filter_refinement` at a concrete name and
file list. -/
theorem c10_namespace_filter_refinement_witness :
    leadsWith (cl "mono") (cl "monoeg_g_free") = true ∧
      generate [ cl "MONO_API void monoeg_g_free (gpointer mem);" ] =
        generateWith keepMonoOnly
          [ cl "MONO_API void monoeg_g_free (gpointer mem);" ] :=
  ⟨c10_namespace_filter_refinement.1 (cl "monoeg_g_free") (by decide),
   c10_namespace_filter_refinement.2.2 _⟩

/-! ## C5: first occurrence wins; output sorted by name -/

theorem lookup_append_aux {α β : Type} [BEq α] :
    ∀ (l1 l2 : List (α × β)) (n : α),
      (l1 ++ l2).lookup n = ((l1.lookup n).orElse fun _ => l2.lookup n) := by
  intro l1
  induction l1 with
  | nil => intro l2 n; simp [List.lookup]
  | cons p l ih =>
    intro l2 n
    cases p with
    | mk a b =>
      rw [List.cons_append, List.lookup, List.lookup]
      cases hn : (n == a) with
      | true => simp
      | false => simp [ih]

theorem regFold_lookup :
    ∀ (ps acc : List (String × SigEntry)) (n : String),
      (regFold acc ps).lookup n = ((acc.lookup n).orElse fun _ => ps.lookup n) := by
  intro ps
  induction ps with
  | nil => intro acc n; simp [regFold, List.lookup]
  | cons p ps ih =>
    intro acc n
    cases p with
    | mk k v =>
      have hstep : regFold acc ((k, v) :: ps) = regFold (setdefault acc k v) ps := rfl
      rw [hstep, ih]
      unfold setdefault
      cases hk : acc.lookup k with
      | some w =>
        simp only [List.lookup]
        cases hn : acc.lookup n with
        | some u => simp
        | none =>
          cases hnk : (n == k) with
          | true =>
            have : n = k := eq_of_beq hnk
            subst this
            rw [hn] at hk
            exact absurd hk (by simp)
          | false => simp
      | none =>
        rw [lookup_append_aux]
        simp only [List.lookup]
        cases hn : acc.lookup n with
        | some u => simp
        | none =>
          cases hnk : (n == k) with
          | true => simp [List.lookup, hnk]
          | false => simp [List.lookup, hnk]

theorem lookup_none_not_keys {α β : Type} [BEq α] [LawfulBEq α] :
    ∀ (l : List (α × β)) (k : α), l.lookup k = none → k ∉ l.map Prod.fst := by
  intro l
  induction l with
  | nil => intro k _; simp
  | cons p l ih =>
    intro k h
    cases p with
    | mk a b =>
      rw [List.lookup] at h
      cases hk : (k == a) with
      | true => rw [hk] at h; exact absurd h (by simp)
      | false =>
        rw [hk] at h
        simp only [List.map_cons, List.mem_cons]
        rintro (rfl | hmem)
        · simp at hk
        · exact ih k h hmem

theorem regFold_keys_nodup :
    ∀ (ps acc : List (String × SigEntry)),
      (acc.map Prod.fst).Nodup → ((regFold acc ps).map Prod.fst).Nodup := by
  intro ps
  induction ps with
  | nil => intro acc h; exact h
  | cons p ps ih =>
    intro acc h
    cases p with
    | mk k v =>
      have hstep : regFold acc ((k, v) :: ps) = regFold (setdefault acc k v) ps := rfl
      rw [hstep]
      apply ih
      unfold setdefault
      cases hk : acc.lookup k with
      | some w => exact h
      | none =>
        rw [List.map_append]
        simp only [List.map_cons, List.map_nil]
        rw [List.nodup_append]
        refine ⟨h, List.nodup_singleton _, ?_⟩
        intro a ha hb
        simp only [List.mem_singleton] at hb
        subst hb
        exact lookup_none_not_keys acc a hk ha

theorem sortPairs_perm (m : List (String × SigEntry)) : (sortPairs m).Perm m :=
  List.perm_insertionSort _ m

theorem sortPairs_sorted (m : List (String × SigEntry)) :
    List.Sorted (fun a b => a.1 ≤ b.1) (sortPairs m) := by
  haveI : IsTotal (String × SigEntry) (fun a b => a.1 ≤ b.1) :=
    ⟨fun a b => le_total a.1 b.1⟩
  haveI : IsTrans (String × SigEntry) (fun a b => a.1 ≤ b.1) :=
    ⟨fun a b c h1 h2 => le_trans h1 h2⟩
  exact List.sorted_insertionSort _ m

/-- C5: for every ordered stream of extracted `(name, entry)` pairs, the
registry built with `setdefault` answers every name with the entry of
its first occurrence (later duplicates are ignored), and the emitted
registry is a permutation of the built registry listed in strictly
increasing lexicographic name order. -/
theorem c5_first_occurrence_wins_sorted :
    (∀ (ps : List (String × SigEntry)) (n : String),
        (regFold [] ps).lookup n = ps.lookup n)
    ∧ ∀ ps : List (String × SigEntry),
        (sortPairs (regFold [] ps)).Perm (regFold [] ps)
        ∧ List.Sorted (· < ·) ((sortPairs (regFold [] ps)).map Prod.fst) := by
  constructor
  · intro ps n
    rw [regFold_lookup]
    simp [List.lookup]
  · intro ps
    refine ⟨sortPairs_perm _, ?_⟩
    have hperm := sortPairs_perm (regFold [] ps)
    have hnd : ((regFold [] ps).map Prod.fst).Nodup :=
      regFold_keys_nodup ps [] (by simp)
    have hnd2 : ((sortPairs (regFold [] ps)).map Prod.fst).Nodup :=
      ((hperm.map Prod.fst).nodup_iff).mpr hnd
    have hle : List.Pairwise (fun a b : String => a ≤ b)
        ((sortPairs (regFold [] ps)).map Prod.fst) :=
      List.Pairwise.map _ (fun a b h => h) (sortPairs_sorted (regFold [] ps))
    exact (hle.and hnd2).imp (fun h => lt_of_le_of_ne h.1 h.2)

/-! ## C9: `void`, empty and `...` fragments contribute nothing -/

/-- C9: `parse_parameters` of `"void"` (or the empty string) is the
empty list; the result is always the fragment-wise `filterMap` of the
top-level comma split, so each fragment contributes independently; a
fragment trimming to the empty string or to the literal `void`, or
normalizing to the literal `...`, contributes no element — hence a
variadic declaration's `...` fragment is dropped while the preceding
parameters are kept (`"int count, ..."` yields exactly `["int"]`). -/
theorem c9_param_dropping :
    (parse_parameters (cl "void") = [] ∧ parse_parameters [] = [])
    ∧ (∀ t, parse_parameters t = (splitTopLevel t).filterMap procFrag)
    ∧ (∀ f, pyStrip f = [] ∨ pyStrip f = cl "void" ∨
        fragSubs (pyStrip f) = cl "..." → procFrag f = none)
    ∧ parse_parameters (cl "int count, ...") = [ cl "int" ] := by
  refine ⟨by decide, ?_, ?_, by decide⟩
  · intro t
    unfold parse_parameters
    split
    · rename_i h
      rcases h with h | h
      · have ht : t = [] := by simpa using h
        subst ht; decide
      · subst h; decide
    · rfl
  · intro f h
    simp only [procFrag]
    rcases h with h | h | h
    · rw [if_pos (Or.inl (by simp [h]))]
    · rw [if_pos (Or.inr (show pyStrip f = [ 'v', 'o', 'i', 'd' ] from h))]
    · by_cases h0 : (pyStrip f).isEmpty = true ∨ pyStrip f = [ 'v', 'o', 'i', 'd' ]
      · rw [if_pos h0]
      · rw [if_neg h0,
          if_pos (show fragSubs (pyStrip f) = [ '.', '.', '.' ] from h)]

/-- Witness for `c9_param_dropping`: the dropping rule applied to
concrete fragments. -/
theorem c9_param_dropping_witness :
    procFrag (cl " ... ") = none ∧ procFrag (cl "  ") = none ∧
      procFrag (cl " void ") = none ∧
      parse_parameters (cl "int count, ...") = [ cl "int" ] :=
  ⟨c9_param_dropping.2.2.1 (cl " ... ") (Or.inr (Or.inr (by decide))),
   c9_param_dropping.2.2.1 (cl "  ") (Or.inl (by decide)),
   c9_param_dropping.2.2.1 (cl " void ") (Or.inr (Or.inl (by decide))),
   c9_param_dropping.2.2.2⟩

/-! ## C7: when `parse_function_declaration` returns `None` -/

theorem dropWhile_head_not {p : Char → Bool} :
    ∀ (l : List Char) (c : Char) (cs : List Char),
      l.dropWhile p = c :: cs → p c = false := by
  intro l
  induction l with
  | nil => intro c cs h; simp [List.dropWhile] at h
  | cons a l ih =>
    intro c cs h
    rw [List.dropWhile_cons] at h
    cases hp : p a with
    | true => rw [hp] at h; simp at h; exact ih c cs h
    | false =>
      rw [hp] at h
      simp at h
      rcases h with ⟨rfl, -⟩
      exact hp

theorem word_not_digit_ident (c : Char) (hw : isWordChar c = true)
    (hd : isDigitCh c = false) : isIdentStart c = true := by
  simp only [isWordChar, isDigitCh, isIdentStart, decide_eq_true_eq,
    decide_eq_false_iff_not] at *
  tauto

theorem trailingIdent_props (l name : List Char) (h : trailingIdent l = some name) :
    (∃ c cs, name = c :: cs ∧ isIdentStart c = true) ∧
      ∀ x ∈ name, isWordChar x = true := by
  unfold trailingIdent at h
  by_cases he : ((l.reverse.takeWhile isWordChar).reverse.dropWhile isDigitCh).isEmpty
  · rw [if_pos he] at h; exact absurd h (by simp)
  · rw [if_neg he] at h
    have hname : (l.reverse.takeWhile isWordChar).reverse.dropWhile isDigitCh = name := by
      injection h
    have hword : ∀ x ∈ name, isWordChar x = true := by
      intro x hx
      rw [← hname] at hx
      have h1 : x ∈ (l.reverse.takeWhile isWordChar).reverse :=
        (List.dropWhile_sublist _).subset hx
      rw [List.mem_reverse] at h1
      exact List.mem_takeWhile_imp h1
    cases hnm : name with
    | nil => rw [hnm] at hname; rw [hname] at he; exact absurd List.isEmpty_nil he
    | cons c cs =>
      refine ⟨⟨c, cs, rfl, ?_⟩, hnm ▸ hword⟩
      have hdig : isDigitCh c = false := by
        apply dropWhile_head_not (l.reverse.takeWhile isWordChar).reverse
        rw [hname, hnm]
      have hw : isWordChar c = true := by
        apply hword
        rw [hnm]; exact List.mem_cons_self _ _
      exact word_not_digit_ident c hw hdig

theorem pfd_eq_none_noparen (d : List Char)
    (hp : ¬ ((normDecl d).contains '(' = true ∧ (normDecl d).contains ')' = true)) :
    parse_function_declaration d = none := by
  unfold parse_function_declaration
  rw [if_pos hp]

theorem pfd_eq_none_noident (d : List Char)
    (hp : (normDecl d).contains '(' = true ∧ (normDecl d).contains ')' = true)
    (hti : trailingIdent (beforeParams (normDecl d)) = none) :
    parse_function_declaration d = none := by
  unfold parse_function_declaration
  rw [if_neg (not_not_intro hp), hti]

theorem pfd_eq_none_noret (d : List Char) (name : List Char)
    (hp : (normDecl d).contains '(' = true ∧ (normDecl d).contains ')' = true)
    (hti : trailingIdent (beforeParams (normDecl d)) = some name)
    (hre : (retOf (normDecl d) name).isEmpty) :
    parse_function_declaration d = none := by
  unfold parse_function_declaration
  rw [if_neg (not_not_intro hp)]
  simp only [hti]
  rw [if_pos hre]

theorem pfd_eq_some (d : List Char) (name : List Char)
    (hp : (normDecl d).contains '(' = true ∧ (normDecl d).contains ')' = true)
    (hti : trailingIdent (beforeParams (normDecl d)) = some name)
    (hre : ¬ (retOf (normDecl d) name).isEmpty) :
    parse_function_declaration d =
      some ⟨name, retOf (normDecl d) name,
        parse_parameters (paramsRaw (normDecl d))⟩ := by
  unfold parse_function_declaration
  rw [if_neg (not_not_intro hp)]
  simp only [hti]
  rw [if_neg hre]

/-- C7: `parse_function_declaration` returns `None` exactly when the
normalized text lacks a `(` or a `)`, or the (stripped) text before the
first `(` has no trailing identifier, or the return type left of that
identifier is empty after trimming; any returned declaration has a
nonempty name matching `[A-Za-z_][A-Za-z0-9_]*` and a nonempty return
type. -/
theorem c7_parse_none_characterization (d : List Char) :
    (parse_function_declaration d = none ↔
      ((normDecl d).contains '(' = false ∨ (normDecl d).contains ')' = false ∨
        trailingIdent (beforeParams (normDecl d)) = none ∨
        (∃ name, trailingIdent (beforeParams (normDecl d)) = some name ∧
          retOf (normDecl d) name = [])))
    ∧ ∀ fd, parse_function_declaration d = some fd →
        (∃ c cs, fd.name = c :: cs ∧ isIdentStart c = true) ∧
        (∀ x ∈ fd.name, isWordChar x = true) ∧ fd.return_type ≠ [] := by
  constructor
  · by_cases hp : (normDecl d).contains '(' = true ∧ (normDecl d).contains ')' = true
    · rcases Option.eq_none_or_eq_some (trailingIdent (beforeParams (normDecl d))) with
        hti | ⟨name, hti⟩
      · rw [pfd_eq_none_noident d hp hti]
        exact ⟨fun _ => Or.inr (Or.inr (Or.inl hti)), fun _ => rfl⟩
      · by_cases hre : (retOf (normDecl d) name).isEmpty
        · rw [pfd_eq_none_noret d name hp hti hre]
          refine ⟨fun _ => Or.inr (Or.inr (Or.inr ⟨name, hti, ?_⟩)), fun _ => rfl⟩
          simpa using hre
        · rw [pfd_eq_some d name hp hti hre]
          constructor
          · intro h; exact absurd h (by simp)
          · intro h
            exfalso
            rcases h with h | h | h | ⟨name2, hsome2, hempty⟩
            · rw [hp.1] at h; exact absurd h (by simp)
            · rw [hp.2] at h; exact absurd h (by simp)
            · rw [hti] at h; exact absurd h (by simp)
            · rw [hti] at hsome2
              have heq : name = name2 := by injection hsome2
              subst heq
              rw [hempty] at hre
              exact hre List.isEmpty_nil
    · rw [pfd_eq_none_noparen d hp]
      constructor
      · intro _
        rcases not_and_or.mp hp with h | h
        · exact Or.inl (by simpa using h)
        · exact Or.inr (Or.inl (by simpa using h))
      · intro _; rfl
  · intro fd hfd
    by_cases hp : (normDecl d).contains '(' = true ∧ (normDecl d).contains ')' = true
    · rcases Option.eq_none_or_eq_some (trailingIdent (beforeParams (normDecl d))) with
        hti | ⟨name, hti⟩
      · rw [pfd_eq_none_noident d hp hti] at hfd; exact absurd hfd (by simp)
      · by_cases hre : (retOf (normDecl d) name).isEmpty
        · rw [pfd_eq_none_noret d name hp hti hre] at hfd
          exact absurd hfd (by simp)
        · rw [pfd_eq_some d name hp hti hre] at hfd
          have hh : FunctionDecl.mk name (retOf (normDecl d) name)
              (parse_parameters (paramsRaw (normDecl d))) = fd := Option.some.inj hfd
          obtain ⟨hex, hall⟩ := trailingIdent_props _ _ hti
          rw [← hh]
          refine ⟨hex, hall, ?_⟩
          intro hc
          have hc2 : retOf (normDecl d) name = [] := hc
          rw [hc2] at hre
          exact hre List.isEmpty_nil
    · rw [pfd_eq_none_noparen d hp] at hfd; exact absurd hfd (by simp)

/-- Witness for `c7_parse_none_characterization`: a parsable declaration
(its invariants hold) and an unparsable one (the `None` side). -/
theorem c7_parse_none_characterization_witness :
    ((∃ c cs, (FunctionDecl.mk (cl "mono_x") (cl "int")
        []).name = c :: cs ∧ isIdentStart c = true) ∧
      (∀ x ∈ (FunctionDecl.mk (cl "mono_x") (cl "int") []).name,
        isWordChar x = true) ∧
      (FunctionDecl.mk (cl "mono_x") (cl "int") []).return_type ≠ []) ∧
      parse_function_declaration (cl "no parens here") = none :=
  ⟨(c7_parse_none_characterization (cl "int mono_x (void)")).2
      ⟨cl "mono_x", cl "int", []⟩ (by decide),
   (c7_parse_none_characterization (cl "no parens here")).1.mpr
      (Or.inl (by decide))⟩

/-! ## C1: the enum registry is cumulative per file, not global -/

theorem genFold_snd : ∀ (files : List (List Char)) (e : List (List Char))
    (r : List (String × SigEntry)),
    (files.foldl genStep (e, r)).2 = regFold r (cumulativeEntries e files) := by
  intro files
  induction files with
  | nil => intro e r; rfl
  | cons f fs ih =>
    intro e r
    rw [List.foldl_cons]
    have hstep : genStep (e, r) f =
        (e ++ collect_enum_types (strip_comments f),
         regFold r (entriesOfFile (e ++ collect_enum_types (strip_comments f))
           (strip_comments f))) := rfl
    rw [hstep, ih]
    have hcum : cumulativeEntries e (f :: fs) =
        entriesOfFile (e ++ collect_enum_types (strip_comments f))
            (strip_comments f) ++
          cumulativeEntries (e ++ collect_enum_types (strip_comments f)) fs := rfl
    rw [hcum]
    unfold regFold
    rw [List.foldl_append]

/-- C1 counterexample: with the function file processed before the file
defining the enum, the return type classifies as `pointer`; with the
enum in the same file it classifies as `int` — so classification does
not see enums from files processed later, contradicting the claim. -/
theorem c1_counterexample :
    generate [ cl "MONO_API MyEnum mono_get (void);",
               cl "typedef enum \x7b RED \x7d MyEnum;" ] =
        [ ("mono_get", ⟨"mono_get", "pointer", []⟩) ] ∧
      generate
          [ cl "MONO_API MyEnum mono_get (void);\ntypedef enum \x7b RED \x7d MyEnum;" ] =
        [ ("mono_get", ⟨"mono_get", "int", []⟩) ] ∧
      ("pointer" : String) ≠ "int" := by
  decide

/-- C1 amended: the enum set consulted while classifying a file's
declarations is exactly the union of the enums collected from that file
and from the files processed before it (`cumulativeEntries`), so an
enum typedef'd in the same or an earlier file is classified `int`
across files, but an enum from a later file is not visible. -/
theorem c1_enum_registry_cumulative :
    (∀ files : List (List Char),
       generate files = sortPairs (regFold [] (cumulativeEntries [] files)))
    ∧ generate [ cl "typedef enum \x7b RED \x7d MyEnum;",
                 cl "MONO_API MyEnum mono_get (void);" ] =
        [ ("mono_get", ⟨"mono_get", "int", []⟩) ] := by
  refine ⟨fun files => ?_, by decide⟩
  show sortPairs ((files.foldl genStep ([], [])).2) = _
  rw [genFold_snd files [] []]

theorem splitLines_ne_nil : ∀ l : List Char, splitLines l ≠ [] := by
  intro l
  match l with
  | [] => simp [splitLines]
  | c :: rest =>
    unfold splitLines
    by_cases hc : c = '\n'
    · rw [if_pos hc]; simp
    · rw [if_neg hc]
      cases splitLines rest with
      | nil => simp
      | cons p ps => simp

theorem joinLines_splitLines : ∀ l : List Char, joinLines (splitLines l) = l := by
  intro l
  induction l with
  | nil => rfl
  | cons c rest ih =>
    unfold splitLines
    by_cases hc : c = '\n'
    · rw [if_pos hc]
      cases hs : splitLines rest with
      | nil => exact absurd hs (splitLines_ne_nil rest)
      | cons p ps =>
        show ([] : List Char) ++ '\n' :: joinLines (p :: ps) = c :: rest
        rw [List.nil_append, ← hs, ih, hc]
    · rw [if_neg hc]
      cases hs : splitLines rest with
      | nil => exact absurd hs (splitLines_ne_nil rest)
      | cons p ps =>
        cases ps with
        | nil =>
          show joinLines [c :: p] = c :: rest
          show c :: p = c :: rest
          rw [hs] at ih
          have : joinLines [p] = rest := ih
          have hp : p = rest := this
          rw [hp]
        | cons q qs =>
          show joinLines ((c :: p) :: q :: qs) = c :: rest
          show (c :: p) ++ '\n' :: joinLines (q :: qs) = c :: rest
          rw [hs] at ih
          have : p ++ '\n' :: joinLines (q :: qs) = rest := ih
          rw [List.cons_append, this]

theorem noNl_splitLines : ∀ (l : List Char) (p : List Char),
    p ∈ splitLines l → '\n' ∉ p := by
  intro l
  induction l with
  | nil =>
    intro p hp
    simp [splitLines] at hp
    subst hp; simp
  | cons c rest ih =>
    intro p hp
    unfold splitLines at hp
    by_cases hc : c = '\n'
    · rw [if_pos hc] at hp
      rcases List.mem_cons.mp hp with rfl | hp2
      · simp
      · exact ih p hp2
    · rw [if_neg hc] at hp
      cases hs : splitLines rest with
      | nil => exact absurd hs (splitLines_ne_nil rest)
      | cons q qs =>
        rw [hs] at hp
        rcases List.mem_cons.mp hp with rfl | hp2
        · intro hmem
          rcases List.mem_cons.mp hmem with h1 | h2
          · exact hc h1.symm
          · exact ih q (hs ▸ List.mem_cons_self q qs) h2
        · exact ih p (hs ▸ List.mem_cons_of_mem q hp2)

theorem splitLines_noNl (p : List Char) (hnl : '\n' ∉ p) : splitLines p = [p] := by
  induction p with
  | nil => rfl
  | cons c rest ih =>
    unfold splitLines
    have hc : c ≠ '\n' := fun h => hnl (h ▸ List.mem_cons_self c rest)
    rw [if_neg hc]
    rw [ih (fun h => hnl (List.mem_cons_of_mem c h))]

theorem splitLines_append_nl (p t : List Char) (hnl : '\n' ∉ p) :
    splitLines (p ++ '\n' :: t) = p :: splitLines t := by
  induction p with
  | nil =>
    show splitLines ('\n' :: t) = [] :: splitLines t
    rw [splitLines.eq_2, if_pos rfl]
  | cons c rest ih =>
    have hc : c ≠ '\n' := fun h => hnl (h ▸ List.mem_cons_self c rest)
    show splitLines (c :: (rest ++ '\n' :: t)) = (c :: rest) :: splitLines t
    rw [splitLines.eq_2, if_neg hc, ih (fun h => hnl (List.mem_cons_of_mem c h))]

theorem splitLines_joinLines : ∀ ps : List (List Char), ps ≠ [] →
    (∀ p ∈ ps, '\n' ∉ p) → splitLines (joinLines ps) = ps := by
  intro ps
  induction ps with
  | nil => intro h; exact absurd rfl h
  | cons p ps ih =>
    intro _ hnl
    cases ps with
    | nil =>
      show splitLines (joinLines [p]) = [p]
      exact splitLines_noNl p (hnl p (List.mem_cons_self p []))
    | cons q qs =>
      show splitLines (p ++ '\n' :: joinLines (q :: qs)) = p :: q :: qs
      rw [splitLines_append_nl p _ (hnl p (List.mem_cons_self p _))]
      rw [ih (by simp) (fun x hx => hnl x (List.mem_cons_of_mem p hx))]

theorem lcA_head : ∀ (c : Char) (l : List Char), ∃ t, lcA (c :: l) = c :: t := by
  intro c l
  match l with
  | [] => exact ⟨[], rfl⟩
  | [d] => exact ⟨[d], rfl⟩
  | d :: e :: rest =>
    rw [lcA.eq_1]
    by_cases h : c ≠ ':' ∧ d = '/' ∧ e = '/'
    · rw [if_pos h]; exact ⟨[], rfl⟩
    · rw [if_neg h]; exact ⟨_, rfl⟩

theorem lcA_shape : ∀ (c d : Char) (l : List Char),
    lcA (c :: d :: l) = [c] ∨
      ∃ u, lcA (c :: d :: l) = c :: d :: u ∧ lcA (d :: l) = d :: u := by
  intro c d l
  match l with
  | [] => exact Or.inr ⟨[], rfl, rfl⟩
  | e :: rest =>
    rw [lcA.eq_1]
    by_cases h : c ≠ ':' ∧ d = '/' ∧ e = '/'
    · rw [if_pos h]; exact Or.inl rfl
    · rw [if_neg h]
      obtain ⟨t, ht⟩ := lcA_head d (e :: rest)
      exact Or.inr ⟨t, by rw [ht], ht⟩

theorem lcA_idem_aux : ∀ (n : Nat) (l : List Char), l.length ≤ n →
    lcA (lcA l) = lcA l := by
  intro n
  induction n with
  | zero =>
    intro l h
    have : l = [] := List.eq_nil_of_length_eq_zero (Nat.le_zero.mp h)
    subst this; rfl
  | succ n ih =>
    intro l h
    match l with
    | [] => rfl
    | [c] => rfl
    | [c, d] => rfl
    | c0 :: c1 :: c2 :: rest =>
      rw [lcA.eq_1]
      by_cases hcond : c0 ≠ ':' ∧ c1 = '/' ∧ c2 = '/'
      · rw [if_pos hcond]; rfl
      · rw [if_neg hcond]
        have hlen : (c1 :: c2 :: rest).length ≤ n := by
          simp only [List.length_cons] at h ⊢
          omega
        have hXi : lcA (lcA (c1 :: c2 :: rest)) = lcA (c1 :: c2 :: rest) := ih _ hlen
        rcases lcA_shape c1 c2 rest with hsh | ⟨u, hsh, hsh2⟩
        · rw [hsh]; rfl
        · rw [hsh]
          rw [hsh] at hXi
          rw [lcA.eq_1, if_neg hcond, hXi]

theorem lcA_idem (l : List Char) : lcA (lcA l) = lcA l :=
  lcA_idem_aux l.length l (Nat.le_refl _)

theorem lcA_pref : ∀ l : List Char, ∃ t, lcA l ++ t = l := by
  intro l
  match l with
  | [] => exact ⟨[], rfl⟩
  | [c] => exact ⟨[], rfl⟩
  | c0 :: c1 :: c2 :: rest =>
    rw [lcA.eq_1]
    by_cases h : c0 ≠ ':' ∧ c1 = '/' ∧ c2 = '/'
    · rw [if_pos h]; exact ⟨c1 :: c2 :: rest, rfl⟩
    · rw [if_neg h]
      obtain ⟨t, ht⟩ := lcA_pref (c1 :: c2 :: rest)
      exact ⟨t, by rw [List.cons_append, ht]⟩
  | [c, d] => exact ⟨[], rfl⟩

theorem lineCutFirst_pref : ∀ l : List Char, ∃ t, lineCutFirst l ++ t = l := by
  intro l
  match l with
  | [] => exact ⟨[], rfl⟩
  | [c] => exact ⟨[], rfl⟩
  | [c, d] =>
    rw [lineCutFirst.eq_2]
    by_cases h : c = '/' ∧ d = '/'
    · rw [if_pos h]; exact ⟨[c, d], rfl⟩
    · rw [if_neg h]; exact ⟨[], rfl⟩
  | c0 :: c1 :: c2 :: rest =>
    rw [lineCutFirst.eq_1]
    by_cases h1 : c0 ≠ ':' ∧ c1 = '/' ∧ c2 = '/'
    · rw [if_pos h1]; exact ⟨c1 :: c2 :: rest, rfl⟩
    · rw [if_neg h1]
      by_cases h2 : c0 = '/' ∧ c1 = '/'
      · rw [if_pos h2]; exact ⟨c0 :: c1 :: c2 :: rest, rfl⟩
      · rw [if_neg h2]
        obtain ⟨t, ht⟩ := lcA_pref (c1 :: c2 :: rest)
        exact ⟨t, by rw [List.cons_append, ht]⟩

theorem lineCutRest_pref : ∀ l : List Char, ∃ t, lineCutRest l ++ t = l := by
  intro l
  match l with
  | [] => exact ⟨[], rfl⟩
  | [c] => exact ⟨[], rfl⟩
  | [c, d] =>
    rw [lineCutRest.eq_2]
    by_cases h : c = '/' ∧ d = '/'
    · rw [if_pos h]; exact ⟨[c, d], rfl⟩
    · rw [if_neg h]; exact ⟨[], rfl⟩
  | c0 :: c1 :: c2 :: rest =>
    rw [lineCutRest.eq_1]
    by_cases h0 : c0 = '/' ∧ c1 = '/'
    · rw [if_pos h0]; exact ⟨c0 :: c1 :: c2 :: rest, rfl⟩
    · rw [if_neg h0]
      by_cases h1 : c0 ≠ ':' ∧ c1 = '/' ∧ c2 = '/'
      · rw [if_pos h1]; exact ⟨c1 :: c2 :: rest, rfl⟩
      · rw [if_neg h1]
        obtain ⟨t, ht⟩ := lcA_pref (c1 :: c2 :: rest)
        exact ⟨t, by rw [List.cons_append, ht]⟩

theorem lineCutFirst_idem (l : List Char) :
    lineCutFirst (lineCutFirst l) = lineCutFirst l := by
  match l with
  | [] => rfl
  | [c] => rfl
  | [c, d] =>
    rw [lineCutFirst.eq_2]
    by_cases h : c = '/' ∧ d = '/'
    · rw [if_pos h]; rfl
    · rw [if_neg h, lineCutFirst.eq_2, if_neg h]
  | c0 :: c1 :: c2 :: rest =>
    rw [lineCutFirst.eq_1]
    by_cases h1 : c0 ≠ ':' ∧ c1 = '/' ∧ c2 = '/'
    · rw [if_pos h1]; rfl
    · rw [if_neg h1]
      by_cases h2 : c0 = '/' ∧ c1 = '/'
      · rw [if_pos h2]; rfl
      · rw [if_neg h2]
        rcases lcA_shape c1 c2 rest with hsh | ⟨u, hsh, hsh2⟩
        · rw [hsh, lineCutFirst.eq_2, if_neg h2]
        · rw [hsh, lineCutFirst.eq_1, if_neg h1, if_neg h2]
          have hXi := lcA_idem (c1 :: c2 :: rest)
          rw [hsh] at hXi
          rw [hXi]

theorem lineCutRest_idem (l : List Char) :
    lineCutRest (lineCutRest l) = lineCutRest l := by
  match l with
  | [] => rfl
  | [c] => rfl
  | [c, d] =>
    rw [lineCutRest.eq_2]
    by_cases h : c = '/' ∧ d = '/'
    · rw [if_pos h]; rfl
    · rw [if_neg h, lineCutRest.eq_2, if_neg h]
  | c0 :: c1 :: c2 :: rest =>
    rw [lineCutRest.eq_1]
    by_cases h0 : c0 = '/' ∧ c1 = '/'
    · rw [if_pos h0]; rfl
    · rw [if_neg h0]
      by_cases h1 : c0 ≠ ':' ∧ c1 = '/' ∧ c2 = '/'
      · rw [if_pos h1]; rfl
      · rw [if_neg h1]
        rcases lcA_shape c1 c2 rest with hsh | ⟨u, hsh, hsh2⟩
        · rw [hsh, lineCutRest.eq_2, if_neg h0]
        · rw [hsh, lineCutRest.eq_1, if_neg h0, if_neg h1]
          have hXi := lcA_idem (c1 :: c2 :: rest)
          rw [hsh] at hXi
          rw [hXi]

theorem hasClose_append_left : ∀ (p t : List Char),
    hasClose p = true → hasClose (p ++ t) = true := by
  intro p
  match p with
  | [] => intro t h; simp [hasClose] at h
  | [a] => intro t h; simp [hasClose] at h
  | a :: b :: l =>
    intro t h
    rw [hasClose.eq_1] at h
    show hasClose (a :: b :: (l ++ t)) = true
    rw [hasClose.eq_1]
    by_cases hab : a = '*' ∧ b = '/'
    · rw [if_pos hab]
    · rw [if_neg hab] at h
      rw [if_neg hab]
      exact hasClose_append_left (b :: l) t h

theorem hasOpen_append_left : ∀ (p t : List Char),
    hasOpen p = true → hasOpen (p ++ t) = true := by
  intro p
  match p with
  | [] => intro t h; simp [hasOpen] at h
  | [a] => intro t h; simp [hasOpen] at h
  | a :: b :: l =>
    intro t h
    rw [hasOpen.eq_1] at h
    show hasOpen (a :: b :: (l ++ t)) = true
    rw [hasOpen.eq_1]
    by_cases hab : a = '/' ∧ b = '*'
    · rw [if_pos hab]
    · rw [if_neg hab] at h
      rw [if_neg hab]
      exact hasOpen_append_left (b :: l) t h

theorem hasClose_cons (c : Char) (l : List Char) (h : hasClose l = true) :
    hasClose (c :: l) = true := by
  cases l with
  | nil => simp [hasClose] at h
  | cons b bs =>
    rw [hasClose.eq_1]
    by_cases hcb : c = '*' ∧ b = '/'
    · rw [if_pos hcb]
    · rw [if_neg hcb]; exact h

theorem hasOpen_cons (c : Char) (l : List Char) (h : hasOpen l = true) :
    hasOpen (c :: l) = true := by
  cases l with
  | nil => simp [hasOpen] at h
  | cons b bs =>
    rw [hasOpen.eq_1]
    by_cases hcb : c = '/' ∧ b = '*'
    · rw [if_pos hcb]
    · rw [if_neg hcb]; exact h

theorem hasBlock_imp_hasClose : ∀ l : List Char,
    hasBlock l = true → hasClose l = true := by
  intro l
  match l with
  | [] => intro h; simp [hasBlock] at h
  | [a] => intro h; simp [hasBlock] at h
  | a :: b :: l =>
    intro h
    rw [hasBlock.eq_1] at h
    by_cases hab : a = '/' ∧ b = '*'
    · rw [if_pos hab] at h
      exact hasClose_cons a _ (hasClose_cons b _ h)
    · rw [if_neg hab] at h
      exact hasClose_cons a _ (hasBlock_imp_hasClose (b :: l) h)

theorem hasBlock_append_left : ∀ (p t : List Char),
    hasBlock p = true → hasBlock (p ++ t) = true := by
  intro p
  match p with
  | [] => intro t h; simp [hasBlock] at h
  | [a] => intro t h; simp [hasBlock] at h
  | a :: b :: l =>
    intro t h
    rw [hasBlock.eq_1] at h
    show hasBlock (a :: b :: (l ++ t)) = true
    rw [hasBlock.eq_1]
    by_cases hab : a = '/' ∧ b = '*'
    · rw [if_pos hab] at h ⊢
      exact hasClose_append_left l t h
    · rw [if_neg hab] at h ⊢
      exact hasBlock_append_left (b :: l) t h

theorem hasClose_append_nl : ∀ (a b : List Char),
    hasClose (a ++ '\n' :: b) = (hasClose a || hasClose b) := by
  intro a
  match a with
  | [] =>
    intro b
    show hasClose ('\n' :: b) = (hasClose [] || hasClose b)
    cases b with
    | nil => rfl
    | cons x xs =>
      rw [hasClose.eq_1]
      rw [if_neg (by simp : ¬ ('\n' = '*' ∧ x = '/'))]
      simp [hasClose]
  | [c] =>
    intro b
    show hasClose (c :: '\n' :: b) = (hasClose [c] || hasClose b)
    rw [hasClose.eq_1, if_neg (by simp : ¬ (c = '*' ∧ '\n' = '/'))]
    rw [show hasClose [c] = false from rfl]
    rw [Bool.false_or]
    exact hasClose_append_nl [] b
  | x :: y :: l =>
    intro b
    show hasClose (x :: y :: (l ++ '\n' :: b)) = _
    rw [hasClose.eq_1, hasClose.eq_1]
    by_cases hxy : x = '*' ∧ y = '/'
    · rw [if_pos hxy, if_pos hxy]; rfl
    · rw [if_neg hxy, if_neg hxy]
      exact hasClose_append_nl (y :: l) b

theorem hasOpen_append_nl : ∀ (a b : List Char),
    hasOpen (a ++ '\n' :: b) = (hasOpen a || hasOpen b) := by
  intro a
  match a with
  | [] =>
    intro b
    show hasOpen ('\n' :: b) = (hasOpen [] || hasOpen b)
    cases b with
    | nil => rfl
    | cons x xs =>
      rw [hasOpen.eq_1]
      rw [if_neg (by simp : ¬ ('\n' = '/' ∧ x = '*'))]
      simp [hasOpen]
  | [c] =>
    intro b
    show hasOpen (c :: '\n' :: b) = (hasOpen [c] || hasOpen b)
    rw [hasOpen.eq_1, if_neg (by simp : ¬ (c = '/' ∧ '\n' = '*'))]
    rw [show hasOpen [c] = false from rfl]
    rw [Bool.false_or]
    exact hasOpen_append_nl [] b
  | x :: y :: l =>
    intro b
    show hasOpen (x :: y :: (l ++ '\n' :: b)) = _
    rw [hasOpen.eq_1, hasOpen.eq_1]
    by_cases hxy : x = '/' ∧ y = '*'
    · rw [if_pos hxy, if_pos hxy]; rfl
    · rw [if_neg hxy, if_neg hxy]
      exact hasOpen_append_nl (y :: l) b

theorem hasBlock_append_nl : ∀ (a b : List Char),
    hasBlock (a ++ '\n' :: b) =
      (hasBlock a || (hasOpen a && hasClose b) || (!hasOpen a && hasBlock b)) := by
  intro a
  match a with
  | [] =>
    intro b
    show hasBlock ('\n' :: b) = _
    have h1 : hasBlock ('\n' :: b) = hasBlock b := by
      cases b with
      | nil => rfl
      | cons x xs =>
        rw [hasBlock.eq_1, if_neg (by simp : ¬ ('\n' = '/' ∧ x = '*'))]
    rw [h1]
    simp [hasBlock, hasOpen]
  | [c] =>
    intro b
    show hasBlock (c :: '\n' :: b) = _
    rw [hasBlock.eq_1, if_neg (by simp : ¬ (c = '/' ∧ '\n' = '*'))]
    have h1 : hasBlock ('\n' :: b) = hasBlock b := by
      cases b with
      | nil => rfl
      | cons x xs =>
        rw [hasBlock.eq_1, if_neg (by simp : ¬ ('\n' = '/' ∧ x = '*'))]
    rw [h1]
    simp [hasBlock, hasOpen]
  | x :: y :: l =>
    intro b
    show hasBlock (x :: y :: (l ++ '\n' :: b)) = _
    rw [hasBlock.eq_1, hasBlock.eq_1, hasOpen.eq_1]
    by_cases hxy : x = '/' ∧ y = '*'
    · rw [if_pos hxy, if_pos hxy, if_pos hxy]
      rw [hasClose_append_nl l b]
      cases hcl : hasClose l <;> cases hcb : hasClose b <;> simp
    · rw [if_neg hxy, if_neg hxy, if_neg hxy]
      exact hasBlock_append_nl (y :: l) b

theorem blockA_false_head : ∀ (x : Char) (l : List Char),
    blockA false (x :: l) = [] ∨
      ∃ y t, blockA false (x :: l) = y :: t ∧ (y = x ∨ y = ' ') := by
  intro x l
  match l with
  | [] => exact Or.inr ⟨x, [], rfl, Or.inl rfl⟩
  | b :: l2 =>
    rw [blockA.eq_1]
    by_cases hab : x = '/' ∧ b = '*'
    · rw [if_pos hab]
      by_cases hc : hasClose l2
      · rw [if_pos hc]; exact Or.inr ⟨' ', _, rfl, Or.inr rfl⟩
      · rw [if_neg hc]; exact Or.inr ⟨x, _, rfl, Or.inl rfl⟩
    · rw [if_neg hab]; exact Or.inr ⟨x, _, rfl, Or.inl rfl⟩

theorem hasBlock_blockA : ∀ (n : Nat) (l : List Char), l.length ≤ n →
    hasBlock (blockA false l) = false ∧ hasBlock (blockA true l) = false := by
  intro n
  induction n with
  | zero =>
    intro l h
    have : l = [] := List.eq_nil_of_length_eq_zero (Nat.le_zero.mp h)
    subst this
    exact ⟨rfl, rfl⟩
  | succ n ih =>
    intro l h
    match l with
    | [] => exact ⟨rfl, rfl⟩
    | [a] =>
      constructor
      · show hasBlock [a] = false
        rfl
      · rfl
    | a :: b :: l2 =>
      have hlen : (b :: l2).length ≤ n := by
        simp only [List.length_cons] at h ⊢
        omega
      have hlen2 : l2.length ≤ n := by
        simp only [List.length_cons] at h
        omega
      constructor
      · rw [blockA.eq_1]
        by_cases hab : a = '/' ∧ b = '*'
        · rw [if_pos hab]
          by_cases hc : hasClose l2
          · rw [if_pos hc]
            have hin := (ih l2 hlen2).2
            cases hb : blockA true l2 with
            | nil => rfl
            | cons y t =>
              rw [hasBlock.eq_1, if_neg (by simp : ¬ (' ' = '/' ∧ y = '*'))]
              rw [hb] at hin
              exact hin
          · rw [if_neg hc]
            rw [hasBlock.eq_1, if_pos hab]
            simpa using hc
        · rw [if_neg hab]
          have hin := (ih (b :: l2) hlen).1
          rcases blockA_false_head b l2 with hnil | ⟨y, t, hyt, hy⟩
          · rw [hnil]; rfl
          · rw [hyt]
            rw [hyt] at hin
            rw [hasBlock.eq_1]
            have hay : ¬ (a = '/' ∧ y = '*') := by
              rintro ⟨rfl, rfl⟩
              rcases hy with hy | hy
              · exact hab ⟨rfl, hy.symm⟩
              · simp at hy
            rw [if_neg hay]
            exact hin
      · rw [blockA.eq_3]
        by_cases hab : a = '*' ∧ b = '/'
        · rw [if_pos hab]
          exact (ih l2 hlen2).1
        · rw [if_neg hab]
          exact (ih (b :: l2) hlen).2

theorem hasBlock_blockSub (l : List Char) : hasBlock (blockSub l) = false :=
  (hasBlock_blockA l.length l (Nat.le_refl _)).1

theorem blockSub_id_of_noBlock : ∀ l : List Char,
    hasBlock l = false → blockA false l = l := by
  intro l
  match l with
  | [] => intro h; rfl
  | [a] => intro h; rfl
  | a :: b :: l2 =>
    intro h
    rw [hasBlock.eq_1] at h
    rw [blockA.eq_1]
    by_cases hab : a = '/' ∧ b = '*'
    · rw [if_pos hab] at h
      rw [if_pos hab, if_neg (by simpa using h)]
    · rw [if_neg hab] at h
      rw [if_neg hab, blockSub_id_of_noBlock (b :: l2) h]

theorem forall₂_map_cutR : ∀ ps : List (List Char),
    List.Forall₂ (fun q p => ∃ t, q ++ t = p) (ps.map lineCutRest) ps := by
  intro ps
  induction ps with
  | nil => exact List.Forall₂.nil
  | cons p ps ih => exact List.Forall₂.cons (lineCutRest_pref p) ih

theorem applyCuts_forall₂ : ∀ ps : List (List Char),
    List.Forall₂ (fun q p => ∃ t, q ++ t = p) (applyCuts ps) ps := by
  intro ps
  cases ps with
  | nil => exact List.Forall₂.nil
  | cons p ps => exact List.Forall₂.cons (lineCutFirst_pref p) (forall₂_map_cutR ps)

theorem hasClose_prefix_anti (q t p : List Char) (hqp : q ++ t = p)
    (h : hasClose p = false) : hasClose q = false := by
  cases hq : hasClose q with
  | false => rfl
  | true =>
    rw [← hqp] at h
    rw [hasClose_append_left q t hq] at h
    exact absurd h (by simp)

theorem hasOpen_prefix_anti (q t p : List Char) (hqp : q ++ t = p)
    (h : hasOpen p = false) : hasOpen q = false := by
  cases hq : hasOpen q with
  | false => rfl
  | true =>
    rw [← hqp] at h
    rw [hasOpen_append_left q t hq] at h
    exact absurd h (by simp)

theorem hasBlock_prefix_anti (q t p : List Char) (hqp : q ++ t = p)
    (h : hasBlock p = false) : hasBlock q = false := by
  cases hq : hasBlock q with
  | false => rfl
  | true =>
    rw [← hqp] at h
    rw [hasBlock_append_left q t hq] at h
    exact absurd h (by simp)

theorem hasClose_join_anti : ∀ {qs ps : List (List Char)},
    List.Forall₂ (fun q p => ∃ t, q ++ t = p) qs ps →
    hasClose (joinLines ps) = false → hasClose (joinLines qs) = false := by
  intro qs ps h
  induction h with
  | nil => intro h2; exact h2
  | @cons q p qs' ps' hqp h' ih =>
    intro h2
    obtain ⟨t, ht⟩ := hqp
    cases ps' with
    | nil =>
      have hq : qs' = [] := List.forall₂_nil_right_iff.mp h'
      subst hq
      exact hasClose_prefix_anti q t p ht h2
    | cons p2 ps'' =>
      have hlq := List.Forall₂.length_eq h'
      cases qs' with
      | nil => simp at hlq
      | cons q2 qs'' =>
        have hp : joinLines (p :: p2 :: ps'') = p ++ '\n' :: joinLines (p2 :: ps'') := rfl
        have hqj : joinLines (q :: q2 :: qs'') = q ++ '\n' :: joinLines (q2 :: qs'') := rfl
        rw [hp, hasClose_append_nl] at h2
        rw [hqj, hasClose_append_nl]
        rcases Bool.or_eq_false_iff.mp h2 with ⟨hc1, hc2⟩
        rw [hasClose_prefix_anti q t p ht hc1, ih hc2]
        rfl

theorem hasBlock_join_anti : ∀ {qs ps : List (List Char)},
    List.Forall₂ (fun q p => ∃ t, q ++ t = p) qs ps →
    hasBlock (joinLines ps) = false → hasBlock (joinLines qs) = false := by
  intro qs ps h
  induction h with
  | nil => intro h2; exact h2
  | @cons q p qs' ps' hqp h' ih =>
    intro h2
    obtain ⟨t, ht⟩ := hqp
    cases ps' with
    | nil =>
      have hq : qs' = [] := List.forall₂_nil_right_iff.mp h'
      subst hq
      exact hasBlock_prefix_anti q t p ht h2
    | cons p2 ps'' =>
      have hlq := List.Forall₂.length_eq h'
      cases qs' with
      | nil => simp at hlq
      | cons q2 qs'' =>
        have hp : joinLines (p :: p2 :: ps'') = p ++ '\n' :: joinLines (p2 :: ps'') := rfl
        have hqj : joinLines (q :: q2 :: qs'') = q ++ '\n' :: joinLines (q2 :: qs'') := rfl
        rw [hp, hasBlock_append_nl] at h2
        rw [hqj, hasBlock_append_nl]
        rcases Bool.or_eq_false_iff.mp h2 with ⟨h3, h4⟩
        rcases Bool.or_eq_false_iff.mp h3 with ⟨hb1, hoc⟩
        have hbJ : hasBlock (joinLines (p2 :: ps'')) = false := by
          cases ho : hasOpen p with
          | true =>
            rw [ho] at hoc
            have hcj : hasClose (joinLines (p2 :: ps'')) = false := by
              simpa using hoc
            cases hbj : hasBlock (joinLines (p2 :: ps'')) with
            | false => rfl
            | true =>
              rw [hasBlock_imp_hasClose _ hbj] at hcj
              exact absurd hcj (by simp)
          | false =>
            rw [ho] at h4
            simpa using h4
        have hcJ : hasOpen q = true → hasClose (joinLines (q2 :: qs'')) = false := by
          intro hoq
          have hop : hasOpen p = true := by
            cases hop2 : hasOpen p with
            | true => rfl
            | false =>
              rw [← ht] at hop2
              rw [hasOpen_append_left q t hoq] at hop2
              exact absurd hop2 (by simp)
          rw [hop] at hoc
          have hcj : hasClose (joinLines (p2 :: ps'')) = false := by simpa using hoc
          exact hasClose_join_anti h' hcj
        rw [hasBlock_prefix_anti q t p ht hb1]
        rw [ih hbJ]
        cases hoq : hasOpen q with
        | false => rfl
        | true =>
          rw [hcJ hoq]
          rfl

theorem lineSub_preserves_noBlock (t : List Char) (h : hasBlock t = false) :
    hasBlock (lineSub t) = false := by
  unfold lineSub
  apply hasBlock_join_anti (applyCuts_forall₂ (splitLines t))
  rw [joinLines_splitLines t]
  exact h

theorem lineSub_idem (t : List Char) : lineSub (lineSub t) = lineSub t := by
  unfold lineSub
  cases hs : splitLines t with
  | nil => exact absurd hs (splitLines_ne_nil t)
  | cons p ps =>
    have hcuts : applyCuts (p :: ps) = lineCutFirst p :: ps.map lineCutRest := rfl
    rw [hcuts]
    have hnl : ∀ x ∈ (lineCutFirst p :: ps.map lineCutRest), '\n' ∉ x := by
      intro x hx
      rcases List.mem_cons.mp hx with rfl | hx2
      · obtain ⟨t2, ht2⟩ := lineCutFirst_pref p
        intro hmem
        exact noNl_splitLines t p (hs ▸ List.mem_cons_self p ps)
          (ht2 ▸ List.mem_append_left t2 hmem)
      · obtain ⟨y, hy, hyeq⟩ := List.mem_map.mp hx2
        obtain ⟨t2, ht2⟩ := lineCutRest_pref y
        intro hmem
        exact noNl_splitLines t y (hs ▸ List.mem_cons_of_mem p hy)
          (ht2 ▸ List.mem_append_left t2 (hyeq ▸ hmem))
    rw [splitLines_joinLines _ (by simp) hnl]
    have hcuts2 : applyCuts (lineCutFirst p :: ps.map lineCutRest) =
        lineCutFirst (lineCutFirst p) :: (ps.map lineCutRest).map lineCutRest := rfl
    rw [hcuts2, lineCutFirst_idem, List.map_map]
    have hmapeq : ps.map (lineCutRest ∘ lineCutRest) = ps.map lineCutRest := by
      apply List.map_congr_left
      intro a _
      exact lineCutRest_idem a
    rw [hmapeq]

/-- C6: `strip_comments` is idempotent — applying the block-comment
replacement and line-comment removal a second time leaves the first
pass's output unchanged. -/
theorem c6_strip_comments_idempotent (s : List Char) :
    strip_comments (strip_comments s) = strip_comments s := by
  unfold strip_comments
  have h1 : hasBlock (blockSub s) = false := hasBlock_blockSub s
  have h2 : hasBlock (lineSub (blockSub s)) = false := lineSub_preserves_noBlock _ h1
  have h3 : blockSub (lineSub (blockSub s)) = lineSub (blockSub s) :=
    blockSub_id_of_noBlock _ h2
  rw [h3]
  exact lineSub_idem _
